import Mathlib

/-!
Verification of the translation-resolution and key-set-validation algorithms
of a lightweight i18n command-line tool.

The development embeds the two JavaScript source modules:

* `src/i18n.js` — the `I18n` class: nested key lookup (`getNestedValue`),
  translation resolution with fallback (`t`), parameter interpolation
  (`interpolate`), locale switching (`setLanguage`), and the CLI helper
  `parseLanguageFromArgs`;
* `scripts/validate-translations.js` — the `TranslationValidator` class:
  key extraction (`extractKeys`), key-set comparison (`compareKeys`), and
  the exit-code logic of `run`.

JSON trees are modelled by the mutual inductive `JValue`/`JArr`/`JObj`,
extended with an opaque `hostVal` constructor for the non-JSON values that
property reads can surface.  Property access `current[segment]` is modelled
faithfully for: own object entries; canonical numeric indices and `length`
of arrays and strings; and the inherited members of `Object.prototype`
(`constructor`, `toString`, `hasOwnProperty`, ..., `__proto__`), which
every JavaScript object, array, string, number and boolean exposes.
Runtime-version-dependent prototype methods specific to one receiver
(`Array.prototype.push`, `String.prototype.toUpperCase`,
`Number.prototype.toFixed`, ...) and property reads on host functions
themselves are beyond the modelled boundary and read as not-found; no
theorem below depends on such a read.  Indexing a string at a position
holding an unpaired surrogate code unit is approximated.  JavaScript
numbers in the coverage computation are modelled by exact rationals, with
`toFixed(2)`/`parseFloat` read as exact rounding to two decimal places.
-/

/-! A JavaScript value reachable during lookup: a JSON string, number,
boolean, null, array or object (objects keep their entries in insertion
order, as JavaScript objects do), or an opaque host value surfaced by an
inherited-member read.  `hostVal nm` stands for the value read at the
inherited `Object.prototype` member `nm`: the `Object.prototype` object
itself for `__proto__`, and the corresponding built-in function otherwise
(which prototype supplies the function for a non-object receiver is not
tracked).  Parsed JSON trees never contain `hostVal`. -/
mutual
inductive JValue where
  | str (s : String) : JValue
  | num (n : Int) : JValue
  | bool (b : Bool) : JValue
  | null : JValue
  | arr (elems : JArr) : JValue
  | obj (entries : JObj) : JValue
  | hostVal (tag : String) : JValue
inductive JArr where
  | nil : JArr
  | cons (hd : JValue) (tl : JArr) : JArr
inductive JObj where
  | nil : JObj
  | cons (key : String) (val : JValue) (tl : JObj) : JObj
end

/-- JavaScript truthiness: `null`, `false`, `0` and `""` are falsy,
everything else (including `[]`, `{}`, functions and prototype objects) is
truthy. -/
def jsTruthy : JValue → Bool
  | .null => false
  | .bool b => b
  | .num n => n != 0
  | .str s => s != ""
  | .arr _ => true
  | .obj _ => true
  | .hostVal _ => true

/-- Whether `typeof v` is the string `"object"`: true for objects, arrays
and `null`; among host values, true exactly for the prototype object read
at `__proto__` (the inherited function members have typeof `"function"`). -/
def jsTypeofObject : JValue → Bool
  | .null => true
  | .arr _ => true
  | .obj _ => true
  | .hostVal tag => tag = "__proto__"
  | _ => false

/-- The function-valued own members of `Object.prototype`, inherited by
every JavaScript object (ES5-stable, runtime-independent). -/
def objectProtoFnNames : List String :=
  ["constructor", "hasOwnProperty", "isPrototypeOf", "propertyIsEnumerable",
   "toLocaleString", "toString", "valueOf",
   "__defineGetter__", "__defineSetter__", "__lookupGetter__", "__lookupSetter__"]

/-- Reading a function-valued inherited `Object.prototype` member. -/
def inheritedFnMember (seg : String) : Option JValue :=
  if objectProtoFnNames.contains seg then some (.hostVal seg) else none

/-- Reading any inherited `Object.prototype` member: the accessor
`__proto__` yields the `Object.prototype` object itself; the function
members yield host functions; every other name is absent. -/
def inheritedMember (seg : String) : Option JValue :=
  if seg = "__proto__" then some (.hostVal "__proto__") else inheritedFnMember seg

/-- Whether `s` is a canonical numeric property key (`"0"`, `"1"`, ..., no
sign, no leading zero), the form under which arrays and strings expose
their elements as properties. -/
def isCanonicalIndex (s : String) : Bool :=
  match s.data with
  | [] => false
  | [c] => c.isDigit
  | c :: rest => ('1' ≤ c && c ≤ '9') && rest.all (fun d => d.isDigit)

/-- The numeric value of a canonical index key. -/
def digitsToNat (s : String) : Nat :=
  s.data.foldl (fun a c => a * 10 + (c.toNat - 48)) 0

/-- Own-property lookup in a JSON object (JSON objects have unique keys;
on a model object with duplicates the first entry wins). -/
def objLookup : JObj → String → Option JValue
  | .nil, _ => none
  | .cons k v rest, s => if k = s then some v else objLookup rest s

/-- The list of top-level keys of an object, in order. -/
def objKeys : JObj → List String
  | .nil => []
  | .cons k _ rest => k :: objKeys rest

/-- Concatenation of the entry lists of two objects. -/
def objAppend : JObj → JObj → JObj
  | .nil, es => es
  | .cons k v rest, es => .cons k v (objAppend rest es)

/-- The `length` of a JavaScript array. -/
def jarrLength : JArr → Nat
  | .nil => 0
  | .cons _ tl => jarrLength tl + 1

/-- Element access `arr[i]` of a JavaScript array (out of range yields
`undefined`). -/
def jarrGet : JArr → Nat → Option JValue
  | .nil, _ => none
  | .cons hd _, 0 => some hd
  | .cons _ tl, n + 1 => jarrGet tl n

/-- Model of `key.startsWith('_')`. -/
def startsWithUnderscore (s : String) : Bool :=
  match s.data with
  | c :: _ => c = '_'
  | [] => false

/-- Model of `String.prototype.startsWith(pre)` for an arbitrary needle. -/
def strStartsWith (s pre : String) : Bool :=
  pre.data.isPrefixOf s.data

/-- Model of `String.prototype.split(sep)` for a one-character separator,
working on the character list. `split` never returns an empty list: the
empty string splits to `[[]]`. -/
def splitOnChar (sep : Char) : List Char → List (List Char)
  | [] => [[]]
  | c :: rest =>
    if c = sep then [] :: splitOnChar sep rest
    else
      match splitOnChar sep rest with
      | seg :: segs => (c :: seg) :: segs
      | [] => [[c]]

/-- Model of `key.split('.')`. -/
def splitDot (s : String) : List String :=
  (splitOnChar '.' s.data).map (fun l => String.mk l)

/-- Model of `arg.split('=')`. -/
def splitEq (s : String) : List String :=
  (splitOnChar '=' s.data).map (fun l => String.mk l)

/-! ### The string order used by `Array.prototype.sort()`

The default JavaScript sort comparator compares strings by their UTF-16
code-unit sequences.  Characters below `0x10000` are single code units;
larger code points are encoded as surrogate pairs. -/

/-- The UTF-16 code units of one character. -/
def utf16Units (c : Char) : List Nat :=
  if c.toNat < 65536 then [c.toNat]
  else [55296 + (c.toNat - 65536) / 1024, 56320 + (c.toNat - 65536) % 1024]

/-- The UTF-16 code-unit sequence of a string. -/
def jsKey (s : String) : List Nat :=
  s.data.flatMap utf16Units

/-- Lexicographic less-or-equal on code-unit sequences. -/
def lexLeUnits : List Nat → List Nat → Bool
  | [], _ => true
  | _ :: _, [] => false
  | a :: as, b :: bs => if a < b then true else if b < a then false else lexLeUnits as bs

/-- The comparator order of the default JavaScript string sort. -/
def jsLe (a b : String) : Bool :=
  lexLeUnits (jsKey a) (jsKey b)

/-- `jsLe` as a proposition, for use with `List.insertionSort`. -/
def jsLeP (a b : String) : Prop := jsLe a b = true

instance : DecidableRel jsLeP := fun a b => instDecidableEqBool (jsLe a b) true

theorem lexLeUnits_total (x y : List Nat) : lexLeUnits x y = true ∨ lexLeUnits y x = true := by
  induction x generalizing y with
  | nil => left; rfl
  | cons a as ih =>
    cases y with
    | nil => right; rfl
    | cons b bs =>
      rcases Nat.lt_trichotomy a b with h | h | h
      · left; simp [lexLeUnits, h]
      · subst h
        rcases ih bs with h2 | h2
        · left; simp [lexLeUnits, h2]
        · right; simp [lexLeUnits, h2]
      · right; simp [lexLeUnits, h, Nat.not_lt.mpr (Nat.le_of_lt h)]

theorem lexLeUnits_trans {x y z : List Nat} (h1 : lexLeUnits x y = true)
    (h2 : lexLeUnits y z = true) : lexLeUnits x z = true := by
  induction x generalizing y z with
  | nil => rfl
  | cons a as ih =>
    cases y with
    | nil => simp [lexLeUnits] at h1
    | cons b bs =>
      cases z with
      | nil => simp [lexLeUnits] at h2
      | cons c cs =>
        simp only [lexLeUnits] at h1 h2 ⊢
        rcases Nat.lt_trichotomy a b with hab | hab | hab
        · rcases Nat.lt_trichotomy b c with hbc | hbc | hbc
          · simp [Nat.lt_trans hab hbc]
          · subst hbc; simp [hab]
          · simp [hbc, Nat.not_lt.mpr (Nat.le_of_lt hbc)] at h2
        · subst hab
          rcases Nat.lt_trichotomy a c with hac | hac | hac
          · simp [hac]
          · subst hac
            simp [Nat.lt_irrefl] at h1 h2 ⊢
            exact ih h1 h2
          · simp [hac, Nat.not_lt.mpr (Nat.le_of_lt hac)] at h2
        · simp [hab, Nat.not_lt.mpr (Nat.le_of_lt hab)] at h1

instance : IsTotal String jsLeP :=
  ⟨fun a b => lexLeUnits_total (jsKey a) (jsKey b)⟩

instance : IsTrans String jsLeP :=
  ⟨fun _ _ _ h1 h2 => lexLeUnits_trans h1 h2⟩

/-- Model of the default (comparator-free) `Array.prototype.sort()` on an
array of strings: a stable sort by UTF-16 code-unit order. -/
def sortJS (l : List String) : List String :=
  List.insertionSort jsLeP l

theorem sortJS_perm (l : List String) : List.Perm (sortJS l) l :=
  List.perm_insertionSort jsLeP l

theorem sortJS_sorted (l : List String) : List.Sorted jsLeP (sortJS l) :=
  List.sorted_insertionSort jsLeP l

theorem mem_sortJS {p : String} {l : List String} : p ∈ sortJS l ↔ p ∈ l :=
  (sortJS_perm l).mem_iff

/-! ### `I18n.getNestedValue` -/

namespace I18n

/-- Property access `current[segment]`: own entries of objects (falling
back to the inherited `Object.prototype` members when the name is not an
own key, exactly as JavaScript's prototype chain does); canonical numeric
indices and `length` of arrays and strings (a string index yields the
one-code-unit string at that UTF-16 position, approximated when that unit
is an unpaired surrogate); the inherited `Object.prototype` members on
numbers and booleans; the own members of the `Object.prototype` object
itself (its function members, and `null` at its own `__proto__`).
Receiver-specific prototype methods (`Array.prototype.push`,
`String.prototype.toUpperCase`, ...) and reads on host functions are
beyond the modelled boundary and yield not-found; no theorem below
depends on such a read. -/
def jsMember : JValue → String → Option JValue
  | .obj es, seg =>
    match objLookup es seg with
    | some v => some v
    | none => inheritedMember seg
  | .arr xs, seg =>
    if isCanonicalIndex seg then jarrGet xs (digitsToNat seg)
    else if seg = "length" then some (.num (jarrLength xs))
    else inheritedMember seg
  | .str s, seg =>
    if isCanonicalIndex seg then
      match (jsKey s).get? (digitsToNat seg) with
      | some u => some (.str (String.mk [Char.ofNat u]))
      | none => none
    else if seg = "length" then some (.num ((jsKey s).length))
    else inheritedMember seg
  | .num _, seg => inheritedMember seg
  | .bool _, seg => inheritedMember seg
  | .null, _ => none
  | .hostVal tag, seg =>
    if tag = "__proto__" then
      if seg = "__proto__" then some .null else inheritedFnMember seg
    else none

/-- One step of the `reduce` in `getNestedValue`:
`current && current[segment] !== undefined ? current[segment] : undefined`. -/
def nestedStep (current : Option JValue) (segment : String) : Option JValue :=
  match current with
  | none => none
  | some c => if jsTruthy c then jsMember c segment else none

/-- Model of `I18n.getNestedValue(obj, key)`: guard
`!obj || typeof obj !== 'object'`, then fold the reduce step over
`key.split('.')`. The argument is an `Option` because the translations
registry may have no entry for the requested locale. -/
def getNestedValue (obj : Option JValue) (key : String) : Option JValue :=
  match obj with
  | none => none
  | some v =>
    if jsTruthy v && jsTypeofObject v then (splitDot key).foldl nestedStep (some v)
    else none

/-- The specification-level notion of a key path resolving in a locale
tree: follow the segments from the root, requiring an own object member at
every step; any non-object node or absent segment fails the whole
traversal.  This is what the spec means by "the path resolves in the
tree"; the program's lookup (`jsTreeLookup` below) also reads indices,
lengths and inherited members. -/
def treeLookup : JValue → List String → Option JValue
  | v, [] => some v
  | v, s :: rest =>
    match v with
    | .obj es =>
      match objLookup es s with
      | some w => treeLookup w rest
      | none => none
    | _ => none

/-- The clean stepwise form of the program's lookup: at each segment, a
falsy node or a node with no readable property at that segment fails the
whole lookup immediately (no partial match); otherwise the property value
— own member, index, length or inherited member, per `jsMember` — becomes
the current node. -/
def jsTreeLookup : JValue → List String → Option JValue
  | v, [] => some v
  | v, s :: rest =>
    if jsTruthy v then
      match jsMember v s with
      | some w => jsTreeLookup w rest
      | none => none
    else none

theorem foldl_nestedStep_none (segs : List String) :
    segs.foldl nestedStep none = none := by
  induction segs with
  | nil => rfl
  | cons s rest ih => simpa [nestedStep] using ih

theorem foldl_nestedStep_eq_jsTreeLookup (segs : List String) (v : JValue) (hne : segs ≠ []) :
    segs.foldl nestedStep (some v) = jsTreeLookup v segs := by
  induction segs generalizing v with
  | nil => exact absurd rfl hne
  | cons s rest ih =>
    by_cases ht : jsTruthy v = true
    · rw [List.foldl_cons,
        show nestedStep (some v) s = jsMember v s from by simp [nestedStep, ht],
        show jsTreeLookup v (s :: rest) =
          (match jsMember v s with
           | some w => jsTreeLookup w rest
           | none => none) from by simp [jsTreeLookup, ht]]
      cases hm : jsMember v s with
      | none => simpa using foldl_nestedStep_none rest
      | some w =>
        cases rest with
        | nil => simp [jsTreeLookup]
        | cons r rs => exact ih w (by simp)
    · have ht2 : jsTruthy v = false := by simpa using ht
      rw [List.foldl_cons,
        show nestedStep (some v) s = none from by simp [nestedStep, ht2],
        foldl_nestedStep_none rest]
      simp [jsTreeLookup, ht2]

theorem splitOnChar_ne_nil (sep : Char) (l : List Char) : splitOnChar sep l ≠ [] := by
  induction l with
  | nil => simp [splitOnChar]
  | cons c rest ih =>
    by_cases h : c = sep
    · simp [splitOnChar, h]
    · simp only [splitOnChar, if_neg h]
      cases hs : splitOnChar sep rest with
      | nil => simp
      | cons seg segs => simp

theorem splitDot_ne_nil (s : String) : splitDot s ≠ [] := by
  intro h
  exact splitOnChar_ne_nil '.' s.data (by simpa [splitDot] using h)

/-- `getNestedValue` is the root guard `!obj || typeof obj !== 'object'`
followed by the clean stepwise lookup: any failure is immediate and final,
with no partial match. -/
theorem getNestedValue_eq_jsTreeLookup (v : JValue) (key : String) :
    getNestedValue (some v) key =
      (if jsTruthy v && jsTypeofObject v then jsTreeLookup v (splitDot key) else none) := by
  by_cases hg : (jsTruthy v && jsTypeofObject v) = true
  · rw [if_pos hg]
    simp only [getNestedValue, hg, if_true]
    exact foldl_nestedStep_eq_jsTreeLookup _ _ (splitDot_ne_nil key)
  · rw [if_neg hg]
    simp [getNestedValue, hg]

theorem getNestedValue_obj (es : JObj) (key : String) :
    getNestedValue (some (.obj es)) key = jsTreeLookup (.obj es) (splitDot key) := by
  rw [getNestedValue_eq_jsTreeLookup]
  simp [jsTruthy, jsTypeofObject]

/-- A path that resolves through own tree members resolves identically in
the program's lookup: an own key always shadows the prototype chain. -/
theorem treeLookup_imp_jsTreeLookup : ∀ (segs : List String) (v w : JValue),
    treeLookup v segs = some w → jsTreeLookup v segs = some w
  | [], v, w, h => by simpa [treeLookup, jsTreeLookup] using h
  | s :: rest, v, w, h => by
    cases v with
    | obj es =>
      simp only [treeLookup] at h
      cases hm : objLookup es s with
      | none =>
        rw [hm] at h
        simp at h
      | some u =>
        rw [hm] at h
        have hj : jsMember (.obj es) s = some u := by simp [jsMember, hm]
        rw [show jsTreeLookup (.obj es) (s :: rest) =
            (match jsMember (.obj es) s with
             | some u2 => jsTreeLookup u2 rest
             | none => none) from by simp [jsTreeLookup, jsTruthy], hj]
        exact treeLookup_imp_jsTreeLookup rest u w h
    | str s2 => simp [treeLookup] at h
    | num n => simp [treeLookup] at h
    | bool b => simp [treeLookup] at h
    | null => simp [treeLookup] at h
    | arr xs => simp [treeLookup] at h
    | hostVal tag => simp [treeLookup] at h

theorem getNestedValue_of_treeLookup {es : JObj} {key : String} {w : JValue}
    (h : treeLookup (.obj es) (splitDot key) = some w) :
    getNestedValue (some (.obj es)) key = some w := by
  rw [getNestedValue_obj]
  exact treeLookup_imp_jsTreeLookup _ _ _ h

end I18n

/-! ### Parameter interpolation -/

/-- The character class of the regex token `\w`: ASCII letters, digits and
underscore. -/
def isWordChar (c : Char) : Bool := c.isAlphanum || c = '_'

theorem lengthDropWhileLe {α : Type} (p : α → Bool) (l : List α) :
    (l.dropWhile p).length ≤ l.length := by
  induction l with
  | nil => simp [List.dropWhile]
  | cons c rest ih =>
    by_cases h : p c
    · simp only [List.dropWhile, h]
      exact Nat.le_succ_of_le ih
    · simp [List.dropWhile, h]

namespace I18n

/-- The replacement text produced when the read `params[name]` finds an
inherited `Object.prototype` member: `replace` stringifies the callback
result, so `__proto__` yields `String(Object.prototype) = "[object
Object]"` and each function-valued member yields the engine's function
source text (`constructor` is the function `Object` itself). The function
texts follow V8's format, the engine Node.js runs this code on. -/
def inheritedParamText (nm : String) : String :=
  if nm = "__proto__" then "[object Object]"
  else "function " ++ (if nm = "constructor" then "Object" else nm) ++
    "() \x7b [native code] \x7d"

/-- Model of the read `params[key]` used by the interpolation callback: an
own entry of the plain-object parameter map wins; otherwise the name is
found on `Object.prototype` (so it passes the `!== undefined` test) and
its stringification becomes the replacement; any other name is absent. -/
def paramsGet (params : List (String × String)) (nm : String) : Option String :=
  match params.lookup nm with
  | some v => some v
  | none =>
    if nm = "__proto__" ∨ objectProtoFnNames.contains nm then
      some (inheritedParamText nm)
    else none

/-- Model of `template.replace(/\{(\w+)\}/g, cb)` on the character list:
a single left-to-right scan.  At each `{` the scanner reads the maximal run
of word characters; if it is nonempty and followed by `}`, the whole
placeholder is replaced (by the parameter value if present, else kept
literally) and scanning resumes after the `}` without re-scanning the
substituted text; otherwise the `{` is emitted and scanning resumes at the
next character, exactly as the global regex search does. -/
def interpChars (params : List (String × String)) : List Char → List Char
  | [] => []
  | c :: rest =>
    if c = '{' then
      match hw : rest.dropWhile isWordChar with
      | '}' :: rest3 =>
        if rest.takeWhile isWordChar = [] then '{' :: interpChars params rest
        else
          (match paramsGet params (String.mk (rest.takeWhile isWordChar)) with
           | some v => v.data
           | none => '{' :: rest.takeWhile isWordChar ++ ['}']) ++ interpChars params rest3
      | _ => '{' :: interpChars params rest
    else c :: interpChars params rest
termination_by l => l.length
decreasing_by
  · simp
  · have hlen := lengthDropWhileLe isWordChar rest
    rw [hw] at hlen
    simp only [List.length_cons] at hlen ⊢
    omega
  · simp
  · simp

/-- Model of `I18n.interpolate(template, params)`. -/
def interpolate (template : String) (params : List (String × String)) : String :=
  String.mk (interpChars params template.data)

/-- The resolver state of an `I18n` instance: current locale, fallback
locale, the translations registry and the set of loaded locales (kept as a
list in insertion order). -/
structure I18nState where
  locale : String
  fallbackLocale : String
  translations : List (String × JValue)
  loadedLocales : List String

/-- Model of `I18n.t(key, params, locale)`: resolve in the target locale,
fall back to the fallback locale when the target misses and differs from
it, and finally return the key itself; a string result is interpolated
when at least one parameter is supplied. `locale = some ""` behaves like
`null` because the source computes `locale || this.locale`. -/
def t (st : I18nState) (key : String) (params : List (String × String))
    (locale : Option String) : JValue :=
  let targetLocale :=
    match locale with
    | some l => if l = "" then st.locale else l
    | none => st.locale
  let fromTarget := getNestedValue (st.translations.lookup targetLocale) key
  let translation :=
    match fromTarget with
    | some v => some v
    | none =>
      if targetLocale ≠ st.fallbackLocale then
        getNestedValue (st.translations.lookup st.fallbackLocale) key
      else none
  match translation with
  | none => .str key
  | some v =>
    match v with
    | .str s => if params.length > 0 then .str (interpolate s params) else .str s
    | _ => v

/-- The result of reading and parsing one locale file: syntactically valid
JSON, or a file whose parse fails. A locale with no file at all is simply
absent from the directory listing. -/
inductive FileContent where
  | parsed (tree : JValue) : FileContent
  | corrupt : FileContent

/-- Property write `this.translations[locale] = tree`: replace in place if
the key exists, else append. -/
def setAssoc : List (String × JValue) → String → JValue → List (String × JValue)
  | [], k, v => [(k, v)]
  | (k1, v1) :: rest, k, v =>
    if k1 = k then (k1, v) :: rest else (k1, v1) :: setAssoc rest k v

/-- Model of `I18n.loadLocale(locale)` against a directory `dir` mapping
locale identifiers to file contents.  Already-loaded locales succeed with
no work; a missing non-fallback file is a soft failure (`ok (st, false)`);
a missing fallback file or an unparsable file throws (`error`). -/
def loadLocale (dir : List (String × FileContent)) (st : I18nState) (locale : String) :
    Except String (I18nState × Bool) :=
  if st.loadedLocales.contains locale then .ok (st, true)
  else
    match dir.lookup locale with
    | none =>
      if locale ≠ st.fallbackLocale then .ok (st, false)
      else .error "fallback locale file not found"
    | some .corrupt => .error "failed to load locale"
    | some (.parsed tree) =>
      .ok ({ st with
              translations := setAssoc st.translations locale tree,
              loadedLocales := st.loadedLocales ++ [locale] }, true)

/-- Model of `I18n.setLanguage(locale)`: a no-op returning true when the
locale is already current; otherwise load it and commit if the load
succeeded (or the identifier is the fallback), keep the state and return
false on a soft load failure, and propagate a thrown load error. -/
def setLanguage (dir : List (String × FileContent)) (st : I18nState) (locale : String) :
    Except String (I18nState × Bool) :=
  if locale = st.locale then .ok (st, true)
  else
    match loadLocale dir st locale with
    | .error e => .error e
    | .ok (st1, loaded) =>
      if loaded || locale = st.fallbackLocale then .ok ({ st1 with locale := locale }, true)
      else .ok (st1, false)

end I18n

/-! ### CLI language flag parsing -/

/-- Predicate for the space-separated flag forms `--lang` / `--language`. -/
def isLangFlag (a : String) : Bool := a == "--lang" || a == "--language"

/-- Predicate for the `--lang=code` / `--language=code` forms. -/
def isLangEqFlag (a : String) : Bool :=
  strStartsWith a "--lang=" || strStartsWith a "--language="

/-- The second half of `parseLanguageFromArgs`: find the first `=`-form
argument and return the text between the first and second `=` (the
`split('=')[1]` of the source). -/
def parseEqForm (args : List String) : Option String :=
  match args.find? isLangEqFlag with
  | some a => (splitEq a).get? 1
  | none => none

/-- Model of `parseLanguageFromArgs(args)`: if some argument is exactly
`--lang` or `--language` and the argument after the first such flag is a
truthy (nonempty) string, return it; otherwise fall back to the first
`--lang=`/`--language=` argument; otherwise none. -/
def parseLanguageFromArgs (args : List String) : Option String :=
  match args.findIdx? isLangFlag with
  | some i =>
    match args[i + 1]? with
    | some v => if v ≠ "" then some v else parseEqForm args
    | none => parseEqForm args
  | none => parseEqForm args

/-! ### The key-set validator -/

namespace TranslationValidator

/-- The recursive key-collection loop of `extractKeys`: walk the entries in
order, skip keys starting with `_`, recurse into plain nested objects
(each recursive `extractKeys` result arrives already sorted, as in the
source), and emit the dot-joined path at every other value. -/
def extractCollect : JObj → String → List String
  | .nil, _ => []
  | .cons k v rest, pfx =>
    (if startsWithUnderscore k then []
     else
       let fullKey := if pfx = "" then k else pfx ++ "." ++ k
       match v with
       | .obj sub => sortJS (extractCollect sub fullKey)
       | _ => [fullKey]) ++ extractCollect rest pfx

/-- Model of `TranslationValidator.extractKeys(obj, prefix)`: collect, then
sort the result. -/
def extractKeys (es : JObj) (pfx : String) : List String :=
  sortJS (extractCollect es pfx)

/-- Specification-level description of the extracted key set, written from
the spec wording: the dot-joined key paths from the root to each leaf, in
depth-first entry order and unsorted, skipping every segment whose name
starts with `_`; a leaf is any value that is not a plain nested object. -/
def keyPaths : JObj → String → List String
  | .nil, _ => []
  | .cons k v rest, pfx =>
    (if startsWithUnderscore k then []
     else
       let fullKey := if pfx = "" then k else pfx ++ "." ++ k
       match v with
       | .obj sub => keyPaths sub fullKey
       | _ => [fullKey]) ++ keyPaths rest pfx

/-- Exact-rational reading of `parseFloat(x.toFixed(2))`: round to two
decimal places (ties away from the floor, as the `toFixed` specification
prescribes). -/
def round2 (q : ℚ) : ℚ := (round (q * 100) : ℚ) / 100

/-- The comparison record built by `compareKeys`. -/
structure CompareResult where
  language : String
  totalKeys : Nat
  missingKeys : List String
  extraKeys : List String
  coverage : ℚ
  isComplete : Bool

/-- Model of `TranslationValidator.compareKeys(masterKeys, targetKeys,
language)`. -/
def compareKeys (masterKeys targetKeys : List String) (language : String) : CompareResult :=
  let missingKeys := masterKeys.filter (fun k => !(targetKeys.contains k))
  let extraKeys := targetKeys.filter (fun k => !(masterKeys.contains k))
  let coverage : ℚ :=
    if masterKeys.length > 0 then
      round2 (((targetKeys.length : ℚ) - (extraKeys.length : ℚ)) / (masterKeys.length : ℚ) * 100)
    else 0
  { language := language
    totalKeys := targetKeys.length
    missingKeys := missingKeys
    extraKeys := extraKeys
    coverage := coverage
    isComplete := missingKeys.length == 0 && extraKeys.length == 0 }

/-- The discrepancy test of `run`: some target has missing or extra keys. -/
def hasIssues (languages : List CompareResult) : Bool :=
  languages.any (fun l => l.missingKeys.length > 0 || l.extraKeys.length > 0)

/-- The exit-code logic of `TranslationValidator.run`, given the per-target
comparison results and the two lenient-mode flags. -/
def runExitCode (warnOnly allowMissing : Bool) (languages : List CompareResult) : Nat :=
  if !hasIssues languages then 0
  else if allowMissing then 0
  else if warnOnly then 0
  else 1

/-- Well-formedness of a locale tree as a JavaScript object with path-safe
segment names: at every level keys are unique (JavaScript objects cannot
hold duplicate keys), nonempty, and free of the `.` separator. -/
def goodObj : JObj → Bool
  | .nil => true
  | .cons k v rest =>
    (k ≠ "" && k.data.all (fun c => c ≠ '.')) && !((objKeys rest).contains k) &&
      (match v with
       | .obj sub => goodObj sub
       | _ => true) && goodObj rest

/-- Every top-level key of the object starts with the metadata prefix. -/
def allMeta : JObj → Bool
  | .nil => true
  | .cons k _ rest => startsWithUnderscore k && allMeta rest

end TranslationValidator

/-! ### Template tokenisations, for stating the interpolation contract -/

/-- A template piece: literal text or a placeholder `{nm}`. -/
inductive Tok where
  | lit (s : String) : Tok
  | ph (nm : String) : Tok

/-- Reassemble a token list into the template text. -/
def assemble : List Tok → String
  | [] => ""
  | .lit s :: ts => s ++ assemble ts
  | .ph n :: ts => "\x7b" ++ n ++ "\x7d" ++ assemble ts

/-- The expected result of one interpolation pass: each placeholder whose
name is bound becomes the bound value verbatim (no re-scanning), a
placeholder naming an inherited `Object.prototype` member becomes that
member's stringification, every other unbound placeholder stays literal,
and literal text is untouched. -/
def render (params : List (String × String)) : List Tok → String
  | [] => ""
  | .lit s :: ts => s ++ render params ts
  | .ph n :: ts =>
    (match I18n.paramsGet params n with
     | some v => v
     | none => "\x7b" ++ n ++ "\x7d") ++ render params ts

/-- Well-formed token: literal text contains no `{`, and a placeholder name
is a nonempty word-character run. -/
def wfTok : Tok → Bool
  | .lit s => s.data.all (fun c => c != '{')
  | .ph n => !n.data.isEmpty && n.data.all isWordChar

/-! ### Claim C4 — lookup traversal discipline (corrected) -/

/-- C4 counterexample: on the tree `{a: "hi"}` the pure tree traversal of
`"a.length"` fails (the segment `length` is reached at a string leaf, not
a tree), so the claim says the lookup yields "not found"; the code's
`current[segment] !== undefined` test instead reads the string's `length`
property and produces the value `2`. -/
theorem C4_counterexample :
    I18n.treeLookup (.obj (.cons "a" (.str "hi") .nil)) (splitDot "a.length") = none ∧
    I18n.getNestedValue (some (.obj (.cons "a" (.str "hi") .nil))) "a.length" =
      some (.num 2) ∧
    (some (JValue.num 2) : Option JValue) ≠ none :=
  ⟨rfl, rfl, by simp⟩

/-- C4 (amended): for every tree and key path, `getNestedValue` traverses
the tree by splitting the key path on `.`, and at each segment, if the
current node is falsy or holds no readable property named by the segment,
the lookup yields "not found" immediately — there is no partial match; a
value CAN however be produced by indexing into a non-tree node: canonical
numeric indices and `length` of string and array leaves, and inherited
`Object.prototype` member names on any truthy node; restricted to paths
that resolve as chains of own tree members, lookup coincides with the
pure tree traversal. -/
theorem C4_lookup_amended (es : JObj) (key : String) :
    I18n.getNestedValue (some (.obj es)) key =
      I18n.jsTreeLookup (.obj es) (splitDot key) ∧
    (∀ w, I18n.treeLookup (.obj es) (splitDot key) = some w →
      I18n.getNestedValue (some (.obj es)) key = some w) ∧
    I18n.getNestedValue (some (.obj (.cons "nav"
        (.arr (.cons (.str "Home") (.cons (.str "About") .nil))) .nil))) "nav.0" =
      some (.str "Home") ∧
    I18n.getNestedValue (some (.obj (.cons "nav"
        (.arr (.cons (.str "Home") (.cons (.str "About") .nil))) .nil))) "nav.length" =
      some (.num 2) ∧
    I18n.getNestedValue (some (.obj .nil)) "constructor" =
      some (.hostVal "constructor") :=
  ⟨I18n.getNestedValue_obj es key,
   fun _ h => I18n.getNestedValue_of_treeLookup h,
   rfl, rfl, rfl⟩

/-- C4 witness: the own-member clause of the amended theorem applied to a
concrete nested tree and path. -/
theorem C4_witness :
    I18n.treeLookup (.obj (.cons "app" (.obj (.cons "name" (.str "Test") .nil)) .nil))
      (splitDot "app.name") = some (.str "Test") ∧
    I18n.getNestedValue
      (some (.obj (.cons "app" (.obj (.cons "name" (.str "Test") .nil)) .nil)))
      "app.name" = some (.str "Test") :=
  ⟨rfl,
   (C4_lookup_amended (.cons "app" (.obj (.cons "name" (.str "Test") .nil)) .nil)
     "app.name").2.1 (.str "Test") rfl⟩

/-! ### Claim C2 — key-set comparison -/

namespace TranslationValidator

/-- C2: `compareKeys` returns exactly the master paths absent from the
target (in master order), the target paths absent from the master (in
target order), the coverage percentage
`(|target| - |extra|) / |master| * 100` rounded to two decimals (`0` for an
empty master), completeness iff both lists are empty, and on the concrete
pair `(["k1","k2","k3"], ["k1"])` yields `missing = ["k2","k3"]`,
`extra = []`, `coverage = 33.33`, `isComplete = false`. -/
theorem C2_compareKeys_contract (m tk : List String) (lang : String) :
    (∀ k, k ∈ (compareKeys m tk lang).missingKeys ↔ k ∈ m ∧ k ∉ tk) ∧
    List.Sublist (compareKeys m tk lang).missingKeys m ∧
    (∀ k, k ∈ (compareKeys m tk lang).extraKeys ↔ k ∈ tk ∧ k ∉ m) ∧
    List.Sublist (compareKeys m tk lang).extraKeys tk ∧
    (compareKeys m tk lang).coverage =
      (if m.length > 0 then
        round2 (((tk.length : ℚ) - (((compareKeys m tk lang).extraKeys.length : ℚ))) /
          (m.length : ℚ) * 100)
       else 0) ∧
    ((compareKeys m tk lang).isComplete = true ↔
      (compareKeys m tk lang).missingKeys = [] ∧ (compareKeys m tk lang).extraKeys = []) ∧
    (compareKeys ["k1", "k2", "k3"] ["k1"] lang).missingKeys = ["k2", "k3"] ∧
    (compareKeys ["k1", "k2", "k3"] ["k1"] lang).extraKeys = [] ∧
    (compareKeys ["k1", "k2", "k3"] ["k1"] lang).coverage = 3333 / 100 ∧
    (compareKeys ["k1", "k2", "k3"] ["k1"] lang).isComplete = false := by
  refine ⟨?_, ?_, ?_, ?_, ?_, ?_, ?_, ?_, ?_, ?_⟩
  · intro k; simp [compareKeys, List.mem_filter]
  · exact List.filter_sublist m
  · intro k; simp [compareKeys, List.mem_filter]
  · exact List.filter_sublist tk
  · rfl
  · simp [compareKeys, Bool.and_eq_true, List.length_eq_zero]
  · rfl
  · rfl
  · have h : (compareKeys ["k1", "k2", "k3"] ["k1"] lang).coverage =
        round2 ((((1 : ℕ) : ℚ) - ((0 : ℕ) : ℚ)) / ((3 : ℕ) : ℚ) * 100) := rfl
    rw [h, round2]
    rw [show (((1 : ℕ) : ℚ) - ((0 : ℕ) : ℚ)) / ((3 : ℕ) : ℚ) * 100 * 100 = 10000 / 3 by norm_num]
    rw [round_eq]
    norm_num
  · rfl

/-! ### Claim C7 — validator exit code -/

/-- C7: the exit code computed by `run` over the comparison results of all
targets against the master is `0` exactly when no target has missing or
extra keys or a lenient mode (`--warn-only` or `--allow-missing`) is
active, and `1` exactly when some target has missing or extra keys and no
lenient mode is set. -/
theorem C7_exit_code_contract (warnOnly allowMissing : Bool) (master : List String)
    (targets : List (List String × String)) :
    (runExitCode warnOnly allowMissing
        (targets.map fun tk => compareKeys master tk.1 tk.2) = 0 ↔
      (¬(∃ tk ∈ targets, (compareKeys master tk.1 tk.2).missingKeys ≠ [] ∨
          (compareKeys master tk.1 tk.2).extraKeys ≠ []) ∨
        warnOnly = true ∨ allowMissing = true)) ∧
    (runExitCode warnOnly allowMissing
        (targets.map fun tk => compareKeys master tk.1 tk.2) = 1 ↔
      ((∃ tk ∈ targets, (compareKeys master tk.1 tk.2).missingKeys ≠ [] ∨
          (compareKeys master tk.1 tk.2).extraKeys ≠ []) ∧
        warnOnly = false ∧ allowMissing = false)) := by
  have hIss : hasIssues (targets.map fun tk => compareKeys master tk.1 tk.2) = true ↔
      (∃ tk ∈ targets, (compareKeys master tk.1 tk.2).missingKeys ≠ [] ∨
        (compareKeys master tk.1 tk.2).extraKeys ≠ []) := by
    rw [hasIssues, List.any_eq_true]
    constructor
    · rintro ⟨r, hrL, hr⟩
      obtain ⟨tk, htk, rfl⟩ := List.mem_map.mp hrL
      refine ⟨tk, htk, ?_⟩
      simpa [List.length_pos] using hr
    · rintro ⟨tk, htk, hr⟩
      refine ⟨compareKeys master tk.1 tk.2, List.mem_map_of_mem _ htk, ?_⟩
      simpa [List.length_pos] using hr
  constructor
  · rw [← hIss]
    cases hI : hasIssues (targets.map fun tk => compareKeys master tk.1 tk.2) <;>
      cases warnOnly <;> cases allowMissing <;> simp [runExitCode, hI]
  · rw [← hIss]
    cases hI : hasIssues (targets.map fun tk => compareKeys master tk.1 tk.2) <;>
      cases warnOnly <;> cases allowMissing <;> simp [runExitCode, hI]

end TranslationValidator

/-! ### Claim C9 — CLI language flag parsing (corrected) -/

/-- C9 counterexample: the claim says the first matching argument in the
list wins, so on `["--lang=ja", "--lang", "fr"]` the result would be
`"ja"` (the value of the first matching argument `--lang=ja`); the code
checks the space-separated forms before any `=`-form and returns `"fr"`. -/
theorem C9_counterexample :
    parseLanguageFromArgs ["--lang=ja", "--lang", "fr"] = some "fr" ∧
    (some "fr" : Option String) ≠ some "ja" := by
  exact ⟨rfl, by simp⟩

/-- C9 (amended): `parseLanguageFromArgs` recognizes `--lang <value>`,
`--language <value>`, `--lang=<value>` and `--language=<value>`. Only the
first space-separated flag occurrence is consulted: when it is followed by
a truthy (nonempty) value, that value is returned, taking priority over
every `=`-form regardless of position; in every other case — no
space-separated flag at all, or the first one's follower missing or empty
— the first `=`-form argument determines the result, namely the text
between the first and second `=`; and none is returned when no `=`-form is
present either. -/
theorem C9_parseLanguage_amended (args : List String) :
    (args.findIdx? isLangFlag = none → args.find? isLangEqFlag = none →
      parseLanguageFromArgs args = none) ∧
    (∀ i v, args.findIdx? isLangFlag = some i → args[i + 1]? = some v → v ≠ "" →
      parseLanguageFromArgs args = some v) ∧
    (∀ i a, args.findIdx? isLangFlag = some i → args[i + 1]? = none →
      args.find? isLangEqFlag = some a →
      parseLanguageFromArgs args = (splitEq a).get? 1) ∧
    (∀ i a, args.findIdx? isLangFlag = some i → args[i + 1]? = some "" →
      args.find? isLangEqFlag = some a →
      parseLanguageFromArgs args = (splitEq a).get? 1) ∧
    (∀ i, args.findIdx? isLangFlag = some i → args[i + 1]? = none →
      args.find? isLangEqFlag = none → parseLanguageFromArgs args = none) ∧
    (∀ i, args.findIdx? isLangFlag = some i → args[i + 1]? = some "" →
      args.find? isLangEqFlag = none → parseLanguageFromArgs args = none) ∧
    (∀ a, args.findIdx? isLangFlag = none → args.find? isLangEqFlag = some a →
      parseLanguageFromArgs args = (splitEq a).get? 1) := by
  refine ⟨?_, ?_, ?_, ?_, ?_, ?_, ?_⟩
  · intro h1 h2
    simp [parseLanguageFromArgs, parseEqForm, h1, h2]
  · intro i v h1 h2 h3
    simp [parseLanguageFromArgs, h1, h2, h3]
  · intro i a h1 h2 h3
    simp [parseLanguageFromArgs, parseEqForm, h1, h2, h3]
  · intro i a h1 h2 h3
    simp [parseLanguageFromArgs, parseEqForm, h1, h2, h3]
  · intro i h1 h2 h3
    simp [parseLanguageFromArgs, parseEqForm, h1, h2, h3]
  · intro i h1 h2 h3
    simp [parseLanguageFromArgs, parseEqForm, h1, h2, h3]
  · intro a h1 h2
    simp [parseLanguageFromArgs, parseEqForm, h1, h2]

/-- C9 witness: the amended theorem applied to concrete argument lists for
the space-separated form, the space-separated flag whose follower is
missing while an `=`-form is present, and the plain `=` form. -/
theorem C9_witness :
    parseLanguageFromArgs ["x", "--language", "ja"] = some "ja" ∧
    parseLanguageFromArgs ["--lang=ja", "--lang"] = some "ja" ∧
    parseLanguageFromArgs ["x", "--language=de"] = some "de" :=
  ⟨(C9_parseLanguage_amended ["x", "--language", "ja"]).2.1 1 "ja" rfl rfl (by decide),
   by
    have h := (C9_parseLanguage_amended ["--lang=ja", "--lang"]).2.2.1 1 "--lang=ja"
      rfl rfl rfl
    simpa using h,
   by
    have h := (C9_parseLanguage_amended ["x", "--language=de"]).2.2.2.2.2.2
      "--language=de" rfl rfl
    simpa using h⟩

/-! ### Claim C6 — `setLanguage` (corrected) -/

namespace I18n

/-- C6 counterexample: with no locale files on disk, setting an unloaded
locale returns false (twice in a row), while the claim asserts that
`setLocale(x)` called twice with the same `x` returns true both times. -/
theorem C6_counterexample :
    setLanguage [] ⟨"en", "en", [("en", .obj .nil)], ["en"]⟩ "ja" =
      .ok (⟨"en", "en", [("en", .obj .nil)], ["en"]⟩, false) ∧
    (Except.ok ((⟨"en", "en", [("en", .obj .nil)], ["en"]⟩ : I18nState), false) :
        Except String (I18nState × Bool)) ≠
      .ok (⟨"en", "en", [("en", .obj .nil)], ["en"]⟩, true) := by
  exact ⟨rfl, by simp⟩

theorem loadLocale_ok_false {dir : List (String × FileContent)} {st : I18nState}
    {x : String} {st1 : I18nState} (h : loadLocale dir st x = .ok (st1, false)) :
    st1 = st ∧ x ≠ st.fallbackLocale := by
  by_cases hc : x ∈ st.loadedLocales
  · simp [loadLocale, hc] at h
  · cases hd : List.lookup x dir with
    | none =>
      by_cases hf : x = st.fallbackLocale
      · subst hf
        simp [loadLocale, hc, hd] at h
      · simp [loadLocale, hc, hd, hf] at h
        exact ⟨h.symm, hf⟩
    | some fc =>
      cases fc with
      | corrupt => simp [loadLocale, hc, hd] at h
      | parsed tree => simp [loadLocale, hc, hd] at h

/-- C6 (amended): `setLanguage(x)` is a no-op returning true when `x` is
the current locale; when `x` differs it commits the change and returns
true if the load succeeds, leaves all resolver state unchanged and returns
false if the load fails softly (missing non-fallback file), and propagates
the error if the load throws (unparsable file, or missing fallback file);
and whenever a `setLanguage(x)` call returns true, an immediate second
`setLanguage(x)` returns true again and leaves the state identical. -/
theorem C6_setLanguage_amended (dir : List (String × FileContent)) (st : I18nState)
    (x : String) :
    (x = st.locale → setLanguage dir st x = .ok (st, true)) ∧
    (∀ st1, x ≠ st.locale → loadLocale dir st x = .ok (st1, true) →
      setLanguage dir st x = .ok ({ st1 with locale := x }, true)) ∧
    (∀ st1, x ≠ st.locale → loadLocale dir st x = .ok (st1, false) →
      st1 = st ∧ setLanguage dir st x = .ok (st, false)) ∧
    (∀ e, x ≠ st.locale → loadLocale dir st x = .error e →
      setLanguage dir st x = .error e) ∧
    (∀ st1, setLanguage dir st x = .ok (st1, true) →
      setLanguage dir st1 x = .ok (st1, true)) := by
  refine ⟨?_, ?_, ?_, ?_, ?_⟩
  · intro h
    simp [setLanguage, h]
  · intro st1 hx hl
    simp [setLanguage, hx, hl]
  · intro st1 hx hl
    obtain ⟨hst, hfb⟩ := loadLocale_ok_false hl
    subst hst
    refine ⟨rfl, ?_⟩
    simp [setLanguage, hx, hl, hfb]
  · intro e hx hl
    simp [setLanguage, hx, hl]
  · intro st1 h
    by_cases hx : x = st.locale
    · have hs : setLanguage dir st x = .ok (st, true) := by simp [setLanguage, hx]
      rw [hs] at h
      have h1 : st = st1 := by simpa using h
      subst h1
      exact hs
    · cases hl : loadLocale dir st x with
      | error e =>
        have hs : setLanguage dir st x = .error e := by simp [setLanguage, hx, hl]
        rw [hs] at h
        exact absurd h (by simp)
      | ok pair =>
        obtain ⟨sta, loaded⟩ := pair
        by_cases hb : (loaded || decide (x = st.fallbackLocale)) = true
        · have hs : setLanguage dir st x = .ok ({ sta with locale := x }, true) := by
            rw [setLanguage, if_neg hx, hl]
            dsimp only
            rw [if_pos hb]
          rw [hs] at h
          have h1 : ({ sta with locale := x } : I18nState) = st1 := by simpa using h
          subst h1
          simp [setLanguage]
        · have hs : setLanguage dir st x = .ok (sta, false) := by
            rw [setLanguage, if_neg hx, hl]
            dsimp only
            rw [if_neg hb]
          rw [hs] at h
          exact absurd h (by simp)

end I18n

/-- C6 witness: the amended theorem applied to a concrete resolver state,
committing a successfully loaded locale and then repeating the call. -/
theorem C6_witness :
    I18n.setLanguage [("ja", .parsed (.obj .nil))]
        ⟨"en", "en", [("en", .obj .nil)], ["en"]⟩ "ja" =
      .ok (⟨"ja", "en", [("en", .obj .nil), ("ja", .obj .nil)], ["en", "ja"]⟩, true) ∧
    I18n.setLanguage [("ja", .parsed (.obj .nil))]
        ⟨"ja", "en", [("en", .obj .nil), ("ja", .obj .nil)], ["en", "ja"]⟩ "ja" =
      .ok (⟨"ja", "en", [("en", .obj .nil), ("ja", .obj .nil)], ["en", "ja"]⟩, true) := by
  have h1 := (I18n.C6_setLanguage_amended [("ja", .parsed (.obj .nil))]
      ⟨"en", "en", [("en", .obj .nil)], ["en"]⟩ "ja").2.1
      ⟨"en", "en", [("en", .obj .nil), ("ja", .obj .nil)], ["en", "ja"]⟩ (by decide) rfl
  exact ⟨h1, (I18n.C6_setLanguage_amended [("ja", .parsed (.obj .nil))]
      ⟨"en", "en", [("en", .obj .nil)], ["en"]⟩ "ja").2.2.2.2 _ h1⟩

/-! ### Claim C1 — resolution precedence and ultimate fallback (corrected) -/

/-- C1 counterexample: on the locale tree `{nav: ["Home", "About"]}` the
key path `nav.0` resolves in neither tree as tree entries (the pure tree
traversal fails at the array), so the claim says `t` returns the key path
unchanged; the code instead reads the array element and returns
`"Home"`. -/
theorem C1_counterexample :
    I18n.treeLookup
        (.obj (.cons "nav" (.arr (.cons (.str "Home") (.cons (.str "About") .nil))) .nil))
        (splitDot "nav.0") = none ∧
    I18n.t ⟨"en", "en",
        [("en", .obj (.cons "nav"
          (.arr (.cons (.str "Home") (.cons (.str "About") .nil))) .nil))],
        ["en"]⟩ "nav.0" [] none = .str "Home" ∧
    JValue.str "Home" ≠ JValue.str "nav.0" :=
  ⟨rfl, rfl, by simp⟩

/-- C1 (amended): for every loaded target locale and key path, `t` returns
the target tree's value when the full path resolves there as tree entries
(and more generally whenever the target lookup — which can also read
string/array indices, lengths and inherited prototype members — finds a
value); when the target lookup finds nothing and the target differs from
the fallback locale, `t` returns the value the fallback lookup finds, when
it finds one; and when the lookup finds a value in neither locale, `t`
returns the original key path string unchanged, never failing. -/
theorem C1_resolution_precedence (st : I18n.I18nState) (tgt key : String) (tree : JValue)
    (hloaded : st.translations.lookup tgt = some tree) (htgt : tgt ≠ "") :
    (∀ v, I18n.treeLookup tree (splitDot key) = some v →
      I18n.t st key [] (some tgt) = v) ∧
    (∀ v, I18n.getNestedValue (some tree) key = some v → I18n.t st key [] (some tgt) = v) ∧
    (tgt ≠ st.fallbackLocale → I18n.getNestedValue (some tree) key = none →
      ∀ w, I18n.getNestedValue (st.translations.lookup st.fallbackLocale) key = some w →
        I18n.t st key [] (some tgt) = w) ∧
    (I18n.getNestedValue (some tree) key = none →
      I18n.getNestedValue (st.translations.lookup st.fallbackLocale) key = none →
      I18n.t st key [] (some tgt) = .str key) := by
  have hmain : ∀ v, I18n.getNestedValue (some tree) key = some v →
      I18n.t st key [] (some tgt) = v := by
    intro v hv
    cases v <;> simp [I18n.t, htgt, hloaded, hv]
  refine ⟨?_, hmain, ?_, ?_⟩
  · intro v hv
    obtain ⟨s, rest, hsegs⟩ : ∃ s rest, splitDot key = s :: rest := by
      cases h : splitDot key with
      | nil => exact absurd h (I18n.splitDot_ne_nil key)
      | cons s rest => exact ⟨s, rest, rfl⟩
    cases tree with
    | obj es => exact hmain v (I18n.getNestedValue_of_treeLookup hv)
    | str s2 => rw [hsegs] at hv; simp [I18n.treeLookup] at hv
    | num n => rw [hsegs] at hv; simp [I18n.treeLookup] at hv
    | bool b => rw [hsegs] at hv; simp [I18n.treeLookup] at hv
    | null => rw [hsegs] at hv; simp [I18n.treeLookup] at hv
    | arr xs => rw [hsegs] at hv; simp [I18n.treeLookup] at hv
    | hostVal tag => rw [hsegs] at hv; simp [I18n.treeLookup] at hv
  · intro hne hv w hw
    cases w <;> simp [I18n.t, htgt, hloaded, hv, hne, hw]
  · intro h1 h2
    by_cases hf : tgt = st.fallbackLocale
    · subst hf
      simp [I18n.t, htgt, hloaded, h1, h2]
    · simp [I18n.t, htgt, hloaded, h1, h2, hf]

/-- C1 witness: a concrete two-locale resolver exercising all three cases:
a key found in the target tree, a key found only in the fallback tree, and
a key found in neither. -/
theorem C1_witness :
    I18n.t ⟨"ja", "en",
        [("ja", .obj (.cons "y" (.str "hai") .nil)),
         ("en", .obj (.cons "y" (.str "yes") (.cons "z" (.str "zed") .nil)))],
        ["ja", "en"]⟩ "y" [] (some "ja") = .str "hai" ∧
    I18n.t ⟨"ja", "en",
        [("ja", .obj (.cons "y" (.str "hai") .nil)),
         ("en", .obj (.cons "y" (.str "yes") (.cons "z" (.str "zed") .nil)))],
        ["ja", "en"]⟩ "z" [] (some "ja") = .str "zed" ∧
    I18n.t ⟨"ja", "en",
        [("ja", .obj (.cons "y" (.str "hai") .nil)),
         ("en", .obj (.cons "y" (.str "yes") (.cons "z" (.str "zed") .nil)))],
        ["ja", "en"]⟩ "missing.key" [] (some "ja") = .str "missing.key" := by
  refine ⟨?_, ?_, ?_⟩
  · exact (C1_resolution_precedence
      ⟨"ja", "en",
        [("ja", .obj (.cons "y" (.str "hai") .nil)),
         ("en", .obj (.cons "y" (.str "yes") (.cons "z" (.str "zed") .nil)))],
        ["ja", "en"]⟩
      "ja" "y" (.obj (.cons "y" (.str "hai") .nil)) rfl (by decide)).1 _ rfl
  · exact (C1_resolution_precedence
      ⟨"ja", "en",
        [("ja", .obj (.cons "y" (.str "hai") .nil)),
         ("en", .obj (.cons "y" (.str "yes") (.cons "z" (.str "zed") .nil)))],
        ["ja", "en"]⟩
      "ja" "z" (.obj (.cons "y" (.str "hai") .nil)) rfl (by decide)).2.2.1
      (by decide) rfl _ rfl
  · exact (C1_resolution_precedence
      ⟨"ja", "en",
        [("ja", .obj (.cons "y" (.str "hai") .nil)),
         ("en", .obj (.cons "y" (.str "yes") (.cons "z" (.str "zed") .nil)))],
        ["ja", "en"]⟩
      "ja" "missing.key" (.obj (.cons "y" (.str "hai") .nil)) rfl
      (by decide)).2.2.2 rfl rfl

/-! ### Claim C10 — empty and metadata-only subtrees are invisible -/

namespace TranslationValidator

theorem extractCollect_objAppend : ∀ (a b : JObj) (pfx : String),
    extractCollect (objAppend a b) pfx = extractCollect a pfx ++ extractCollect b pfx
  | .nil, b, pfx => by simp [objAppend, extractCollect]
  | .cons k v rest, b, pfx => by
    simp only [objAppend, extractCollect, extractCollect_objAppend rest b pfx,
      List.append_assoc]

theorem allMeta_extractCollect : ∀ (sub : JObj) (pfx : String), allMeta sub = true →
    extractCollect sub pfx = []
  | .nil, _, _ => rfl
  | .cons k v rest, pfx, h => by
    have h2 : startsWithUnderscore k = true ∧ allMeta rest = true := by
      simpa [allMeta, Bool.and_eq_true] using h
    simp [extractCollect, h2.1, allMeta_extractCollect rest pfx h2.2]

/-- C10: an entry whose value is an object with no entries, or only entries
whose names start with the metadata prefix `_`, contributes no key path at
all to `extractKeys`, wherever it sits among the entries; in particular the
segment itself is never listed as a path, so such subtrees are invisible to
key extraction (and hence to the missing/extra and coverage computations
built on it). -/
theorem C10_empty_subtree_invisible (before rest sub : JObj) (k pfx : String)
    (hmeta : allMeta sub = true) :
    extractKeys (objAppend before (.cons k (.obj sub) rest)) pfx =
      extractKeys (objAppend before rest) pfx ∧
    extractKeys (.cons k (.obj sub) .nil) pfx = [] := by
  have hsub : ∀ q, extractCollect sub q = [] := fun q => allMeta_extractCollect sub q hmeta
  have hhead : ∀ q, extractCollect (.cons k (.obj sub) .nil) q = [] := by
    intro q
    by_cases hu : startsWithUnderscore k = true <;>
      simp [extractCollect, hu, hsub, sortJS, List.insertionSort]
  constructor
  · rw [extractKeys, extractKeys, extractCollect_objAppend, extractCollect_objAppend]
    congr 1
    have : extractCollect (.cons k (.obj sub) rest) pfx =
        extractCollect (.cons k (.obj sub) .nil) pfx ++ extractCollect rest pfx := by
      by_cases hu : startsWithUnderscore k = true <;>
        simp [extractCollect, hu]
    rw [this, hhead, List.nil_append]
  · rw [extractKeys, hhead]
    rfl

/-- C10 witness: a metadata-only subtree in the middle of a concrete tree
changes nothing, and alone it extracts to the empty list. -/
theorem C10_witness :
    extractKeys
        (objAppend (.cons "a" (.str "x") .nil)
          (.cons "m" (.obj (.cons "_note" (.str "n") .nil)) (.cons "z" (.str "y") .nil))) "" =
      extractKeys (objAppend (.cons "a" (.str "x") .nil) (.cons "z" (.str "y") .nil)) "" ∧
    extractKeys (.cons "m" (.obj (.cons "_note" (.str "n") .nil)) .nil) "" = [] :=
  C10_empty_subtree_invisible (.cons "a" (.str "x") .nil) (.cons "z" (.str "y") .nil)
    (.cons "_note" (.str "n") .nil) "m" "" (by decide)

end TranslationValidator

/-! ### Claim C3 — key extraction -/

namespace TranslationValidator

theorem extractCollect_perm_keyPaths :
    ∀ (n : Nat) (es : JObj), sizeOf es ≤ n → ∀ pfx,
      List.Perm (extractCollect es pfx) (keyPaths es pfx) := by
  intro n
  induction n with
  | zero =>
    intro es h pfx
    cases es with
    | nil => simp [extractCollect, keyPaths]
    | cons k v rest =>
      simp only [JObj.cons.sizeOf_spec] at h
      omega
  | succ m ih =>
    intro es h pfx
    cases es with
    | nil => simp [extractCollect, keyPaths]
    | cons k v rest =>
      have hrest : sizeOf rest ≤ m := by
        simp only [JObj.cons.sizeOf_spec] at h
        omega
      simp only [extractCollect, keyPaths]
      refine List.Perm.append ?_ (ih rest hrest pfx)
      by_cases hu : startsWithUnderscore k = true
      · simp [hu]
      · rw [if_neg hu, if_neg hu]
        cases v with
        | obj sub =>
          have hsub : sizeOf sub ≤ m := by
            simp only [JObj.cons.sizeOf_spec, JValue.obj.sizeOf_spec] at h
            omega
          exact (sortJS_perm _).trans (ih sub hsub _)
        | str s => exact List.Perm.refl _
        | num x => exact List.Perm.refl _
        | bool b => exact List.Perm.refl _
        | null => exact List.Perm.refl _
        | arr xs => exact List.Perm.refl _
        | hostVal tag => exact List.Perm.refl _

/-- C3: `extractKeys` returns a list sorted in the JavaScript string order
that is a permutation of the specification-level collection of all
dot-joined root-to-leaf key paths (depth-first, skipping every segment
whose name starts with `_` at every level of recursion, with any
non-object value — string, number, boolean, array or null — terminating
recursion as a leaf); on `{_meta: {...}, a: {b: "x"}, c: "y"}` it yields
exactly `["a.b", "c"]`, and a `_`-prefixed key nested below the root is
likewise skipped. -/
theorem C3_extractKeys_contract (es : JObj) (pfx : String) :
    List.Sorted jsLeP (extractKeys es pfx) ∧
    List.Perm (extractKeys es pfx) (keyPaths es pfx) ∧
    extractKeys
      (.cons "_meta" (.obj (.cons "name" (.str "English") .nil))
        (.cons "a" (.obj (.cons "b" (.str "x") .nil))
          (.cons "c" (.str "y") .nil))) "" = ["a.b", "c"] ∧
    extractKeys
      (.cons "a" (.obj (.cons "_x" (.str "s") (.cons "b" (.str "x") .nil))) .nil) "" =
      ["a.b"] := by
  refine ⟨sortJS_sorted _,
    (sortJS_perm _).trans (extractCollect_perm_keyPaths (sizeOf es) es (Nat.le_refl _) pfx),
    by decide, by decide⟩

end TranslationValidator

/-! ### Claim C5 — interpolation -/

theorem strMkAppend (a b : List Char) : String.mk (a ++ b) = String.mk a ++ String.mk b := rfl

theorem strMkData (s : String) : String.mk s.data = s := rfl

namespace I18n

theorem interpChars_cons_of_ne (params : List (String × String)) (c : Char)
    (rest : List Char) (h : ¬ c = '{') :
    interpChars params (c :: rest) = c :: interpChars params rest := by
  simp only [interpChars]
  rw [if_neg h]

theorem interpChars_lit (params : List (String × String)) :
    ∀ (cs rest : List Char), (∀ c ∈ cs, c ≠ '{') →
      interpChars params (cs ++ rest) = cs ++ interpChars params rest
  | [], rest, _ => by simp
  | c :: cs, rest, h => by
    have hc : ¬ c = '{' := h c (by simp)
    rw [List.cons_append, interpChars_cons_of_ne params c (cs ++ rest) hc,
      interpChars_lit params cs rest (fun d hd => h d (by simp [hd]))]
    rfl

theorem takeWhile_word (nm rest : List Char) (hword : ∀ c ∈ nm, isWordChar c = true) :
    (nm ++ '}' :: rest).takeWhile isWordChar = nm ∧
    (nm ++ '}' :: rest).dropWhile isWordChar = '}' :: rest := by
  induction nm with
  | nil =>
    constructor <;>
      simp [List.takeWhile_cons, List.dropWhile_cons,
        show isWordChar '}' = false from by decide]
  | cons c nm ih =>
    have hc : isWordChar c = true := hword c (by simp)
    have ih2 := ih (fun d hd => hword d (by simp [hd]))
    constructor <;>
      simp [List.takeWhile_cons, List.dropWhile_cons, hc, ih2.1, ih2.2]

theorem interpChars_ph (params : List (String × String)) (nm rest : List Char)
    (hne : nm ≠ []) (hword : ∀ c ∈ nm, isWordChar c = true) :
    interpChars params ('{' :: (nm ++ '}' :: rest)) =
      (match paramsGet params (String.mk nm) with
       | some v => v.data
       | none => '{' :: nm ++ ['}']) ++ interpChars params rest := by
  have htw := (takeWhile_word nm rest hword).1
  have hdw := (takeWhile_word nm rest hword).2
  simp only [interpChars, if_pos]
  split
  next rest3 heq =>
    rw [hdw] at heq
    injection heq with h1 h2
    subst h2
    rw [htw, if_neg hne]
  next hno =>
    exact absurd hdw (hno rest)

end I18n

/-- C5 counterexample: the placeholder name `constructor` is bound by no
entry of the parameter map `{version: "1.0.0"}`, so under the claim the
text `\x7bconstructor\x7d` must survive interpolation literally; but the
read `params['constructor']` finds `Object.prototype.constructor`, which
is not `undefined`, so the code substitutes its stringification and the
placeholder does not stay literal. -/
theorem C5_counterexample :
    (List.lookup "constructor" [("version", "1.0.0")] : Option String) = none ∧
    I18n.interpolate "\x7bconstructor\x7d" [("version", "1.0.0")] =
      "function Object() \x7b [native code] \x7d" ∧
    ("function Object() \x7b [native code] \x7d" : String) ≠ "\x7bconstructor\x7d" := by
  refine ⟨rfl, ?_, by decide⟩
  have hdata : ("\x7bconstructor\x7d" : String).data =
      '{' :: ("constructor".data ++ '}' :: []) := by decide
  have h0 : I18n.interpChars [("version", "1.0.0")] ([] : List Char) = [] := by
    simp [I18n.interpChars]
  rw [I18n.interpolate, hdata,
    I18n.interpChars_ph [("version", "1.0.0")] "constructor".data [] (by decide)
      (by decide), h0, List.append_nil]
  decide

/-- C5 (amended): for every template assembled from well-formed pieces and
every parameter map with at least one entry, interpolation replaces every
placeholder occurrence `{name}` (name a nonempty alphanumeric/underscore
run) whose name is bound in the map by the bound value inserted verbatim
— a single left-to-right pass with no re-scanning of substituted text —
replaces a placeholder whose unbound name is an inherited
`Object.prototype` member (`constructor`, `toString`, `__proto__`, …) by
that member's host stringification, and leaves every other unbound
placeholder literally untouched; and when the resolved translation is not
a string, `t` returns it as-is, ignoring the parameters. -/
theorem C5_interpolation_contract (toks : List Tok) (params : List (String × String))
    (hwf : ∀ tk ∈ toks, wfTok tk = true) (hps : params ≠ []) :
    I18n.interpolate (assemble toks) params = render params toks ∧
    (∀ (st : I18n.I18nState) (key : String) (v : JValue),
      I18n.getNestedValue (st.translations.lookup st.locale) key = some v →
      (∀ s, v ≠ JValue.str s) → I18n.t st key params none = v) := by
  constructor
  · clear hps
    induction toks with
    | nil =>
      have h0 : I18n.interpChars params ([] : List Char) = [] := by
        simp [I18n.interpChars]
      show String.mk (I18n.interpChars params ("" : String).data) = ""
      rw [show ("" : String).data = ([] : List Char) from rfl, h0]
    | cons tk ts ih =>
      have hts : ∀ x ∈ ts, wfTok x = true := fun x hx => hwf x (by simp [hx])
      have hih := ih hts
      cases tk with
      | lit s =>
        have hs : ∀ c ∈ s.data, c ≠ '{' := by
          have h0 := hwf (.lit s) (by simp)
          simp only [wfTok, List.all_eq_true, bne_iff_ne] at h0
          exact h0
        show I18n.interpolate (s ++ assemble ts) params = s ++ render params ts
        rw [I18n.interpolate, String.data_append,
          I18n.interpChars_lit params s.data (assemble ts).data hs,
          strMkAppend, strMkData, ← hih]
        rfl
      | ph n =>
        have h0 := hwf (.ph n) (by simp)
        simp only [wfTok, Bool.and_eq_true, Bool.not_eq_true', List.isEmpty_eq_false,
          List.all_eq_true] at h0
        have hne : n.data ≠ [] := h0.1
        have hword : ∀ c ∈ n.data, isWordChar c = true := h0.2
        have hdata : (assemble (Tok.ph n :: ts)).data =
            '{' :: (n.data ++ '}' :: (assemble ts).data) := by
          simp [assemble, String.data_append]
        have hmain : I18n.interpolate (assemble (Tok.ph n :: ts)) params =
            String.mk ((match I18n.paramsGet params n with
              | some v => v.data
              | none => '{' :: n.data ++ ['}']) ++ I18n.interpChars params (assemble ts).data) := by
          rw [I18n.interpolate, hdata,
            I18n.interpChars_ph params n.data (assemble ts).data hne hword, strMkData n]
        rw [hmain]
        cases hv : I18n.paramsGet params n with
        | some v =>
          have hr : render params (Tok.ph n :: ts) = v ++ render params ts := by
            simp [render, hv]
          rw [hr]
          calc String.mk (v.data ++ I18n.interpChars params (assemble ts).data)
              = String.mk v.data ++ String.mk (I18n.interpChars params (assemble ts).data) :=
                strMkAppend v.data _
            _ = v ++ I18n.interpolate (assemble ts) params := by rw [strMkData]; rfl
            _ = v ++ render params ts := by rw [hih]
        | none =>
          have hr : render params (Tok.ph n :: ts) =
              ("\x7b" ++ n ++ "\x7d") ++ render params ts := by
            simp [render, hv]
          rw [hr]
          calc String.mk (('{' :: n.data ++ ['}']) ++ I18n.interpChars params (assemble ts).data)
              = String.mk ('{' :: n.data ++ ['}']) ++
                  String.mk (I18n.interpChars params (assemble ts).data) :=
                strMkAppend _ _
            _ = ("\x7b" ++ n ++ "\x7d") ++ I18n.interpolate (assemble ts) params := rfl
            _ = ("\x7b" ++ n ++ "\x7d") ++ render params ts := by rw [hih]
  · intro st key v hres hnstr
    cases v with
    | str s => exact absurd rfl (hnstr s)
    | num x => simp [I18n.t, hres]
    | bool b => simp [I18n.t, hres]
    | null => simp [I18n.t, hres]
    | arr xs => simp [I18n.t, hres]
    | obj es => simp [I18n.t, hres]
    | hostVal tag => simp [I18n.t, hres]

/-- C5 witness: the contract applied to the concrete template
`"Version {version}"` with parameter map `{version: "1.0.0"}`, and to a
non-string resolved value. -/
theorem C5_witness :
    (∀ tk ∈ ([Tok.lit "Version ", Tok.ph "version"] : List Tok), wfTok tk = true) ∧
    ([("version", "1.0.0")] : List (String × String)) ≠ [] ∧
    I18n.interpolate (assemble [Tok.lit "Version ", Tok.ph "version"])
        [("version", "1.0.0")] =
      render [("version", "1.0.0")] [Tok.lit "Version ", Tok.ph "version"] ∧
    I18n.t ⟨"en", "en", [("en", .obj (.cons "n" (.num 5) .nil))], ["en"]⟩ "n"
        [("version", "1.0.0")] none = .num 5 := by
  refine ⟨by decide, by decide, ?_, ?_⟩
  · exact (C5_interpolation_contract [Tok.lit "Version ", Tok.ph "version"]
      [("version", "1.0.0")] (by decide) (by decide)).1
  · exact (C5_interpolation_contract [Tok.lit "Version ", Tok.ph "version"]
      [("version", "1.0.0")] (by decide) (by decide)).2
      ⟨"en", "en", [("en", .obj (.cons "n" (.num 5) .nil))], ["en"]⟩ "n" (.num 5) rfl
      (fun s h => JValue.noConfusion h)

/-! ### Claim C8 — extract/resolve round trip (corrected) -/

theorem strExt : ∀ {a b : String}, a.data = b.data → a = b
  | ⟨_⟩, ⟨_⟩, h => by cases h; rfl

/-- The `fullKey` computation of `extractKeys`:
`prefix ? prefix + "." + key : key`. -/
def addPre (pfx q : String) : String :=
  if pfx = "" then q else pfx ++ "." ++ q

theorem addPre_empty (q : String) : addPre "" q = q := rfl

theorem addPre_assoc (pfx k q : String) (hk : k ≠ "") :
    addPre pfx (addPre k q) = addPre (addPre pfx k) q := by
  by_cases hp : pfx = ""
  · subst hp
    rw [addPre_empty, addPre_empty]
  · have hne2 : pfx ++ "." ++ k ≠ "" := by
      intro hcontra
      have := congrArg String.data hcontra
      simp [String.data_append] at this
    simp only [addPre, if_neg hp, if_neg hk, if_neg hne2]
    apply strExt
    simp [String.data_append]

theorem splitOnChar_of_no_sep (sep : Char) :
    ∀ (l : List Char), (∀ c ∈ l, c ≠ sep) → splitOnChar sep l = [l]
  | [], _ => rfl
  | c :: rest, h => by
    have hc : ¬ c = sep := h c (by simp)
    simp [splitOnChar, hc, splitOnChar_of_no_sep sep rest (fun d hd => h d (by simp [hd]))]

theorem splitOnChar_append (sep : Char) :
    ∀ (k q : List Char), (∀ c ∈ k, c ≠ sep) →
      splitOnChar sep (k ++ sep :: q) = k :: splitOnChar sep q
  | [], q, _ => by simp [splitOnChar]
  | c :: k, q, h => by
    have hc : ¬ c = sep := h c (by simp)
    simp [splitOnChar, hc,
      splitOnChar_append sep k q (fun d hd => h d (by simp [hd]))]

theorem splitDot_single (k : String) (h : ∀ c ∈ k.data, c ≠ '.') :
    splitDot k = [k] := by
  simp [splitDot, splitOnChar_of_no_sep '.' k.data h, strMkData]

theorem splitDot_append (k q : String) (h : ∀ c ∈ k.data, c ≠ '.') :
    splitDot (k ++ "." ++ q) = k :: splitDot q := by
  have hdata : (k ++ "." ++ q).data = k.data ++ '.' :: q.data := by
    simp [String.data_append]
  simp [splitDot, hdata, splitOnChar_append '.' k.data q.data h, strMkData]

theorem objLookup_mem : ∀ (es : JObj) (s : String) (u : JValue),
    objLookup es s = some u → s ∈ objKeys es
  | .nil, s, u, h => by simp [objLookup] at h
  | .cons k v rest, s, u, h => by
    by_cases hk : k = s
    · simp [objKeys, hk]
    · have h2 : objLookup rest s = some u := by simpa [objLookup, hk] using h
      exact List.mem_cons_of_mem _ (objLookup_mem rest s u h2)

namespace TranslationValidator

theorem extractCollect_cons (k : String) (v : JValue) (rest : JObj) (pfx : String) :
    extractCollect (.cons k v rest) pfx =
      (if startsWithUnderscore k then []
       else
         match v with
         | .obj sub => sortJS (extractCollect sub (addPre pfx k))
         | _ => [addPre pfx k]) ++ extractCollect rest pfx := by
  simp only [extractCollect, addPre]

theorem goodObj_cons {k : String} {v : JValue} {rest : JObj}
    (h : goodObj (.cons k v rest) = true) :
    k ≠ "" ∧ (∀ c ∈ k.data, c ≠ '.') ∧ k ∉ objKeys rest ∧
    (∀ sub, v = .obj sub → goodObj sub = true) ∧ goodObj rest = true := by
  have h2 := h
  unfold goodObj at h2
  simp only [Bool.and_eq_true] at h2
  obtain ⟨⟨⟨hA, hC⟩, hM⟩, hR⟩ := h2
  refine ⟨?_, ?_, ?_, ?_, hR⟩
  · exact of_decide_eq_true hA.1
  · intro c hc
    have := List.all_eq_true.mp hA.2 c hc
    exact of_decide_eq_true this
  · intro hmem
    have h3 : ¬ k ∈ objKeys rest := by simpa using hC
    exact h3 hmem
  · intro sub hv
    subst hv
    exact hM

end TranslationValidator

namespace TranslationValidator

theorem collect_shift_perm : ∀ (n : Nat) (es : JObj), sizeOf es ≤ n → goodObj es = true →
    ∀ pfx, List.Perm (extractCollect es pfx) ((extractCollect es "").map (addPre pfx)) := by
  intro n
  induction n with
  | zero =>
    intro es h hg pfx
    cases es with
    | nil => simp [extractCollect]
    | cons k v rest =>
      simp only [JObj.cons.sizeOf_spec] at h
      omega
  | succ m ih =>
    intro es h hg pfx
    cases es with
    | nil => simp [extractCollect]
    | cons k v rest =>
      obtain ⟨hk0, hkdot, hknotin, hvsub, hgrest⟩ := goodObj_cons hg
      have hrest : sizeOf rest ≤ m := by
        simp only [JObj.cons.sizeOf_spec] at h
        omega
      rw [extractCollect_cons, extractCollect_cons k v rest "", List.map_append]
      refine List.Perm.append ?_ (ih rest hrest hgrest pfx)
      by_cases hu : startsWithUnderscore k = true
      · simp [hu]
      · rw [if_neg hu, if_neg hu]
        cases v with
        | obj sub =>
          have hgsub := hvsub sub rfl
          have hsub : sizeOf sub ≤ m := by
            simp only [JObj.cons.sizeOf_spec, JValue.obj.sizeOf_spec] at h
            omega
          rw [addPre_empty]
          have h1 : List.Perm (sortJS (extractCollect sub (addPre pfx k)))
              ((extractCollect sub "").map (addPre (addPre pfx k))) :=
            (sortJS_perm _).trans (ih sub hsub hgsub (addPre pfx k))
          have h3 : List.Perm ((sortJS (extractCollect sub k)).map (addPre pfx))
              ((extractCollect sub k).map (addPre pfx)) :=
            (sortJS_perm _).map _
          have h4 : List.Perm ((extractCollect sub k).map (addPre pfx))
              (((extractCollect sub "").map (addPre k)).map (addPre pfx)) :=
            (ih sub hsub hgsub k).map _
          have h5 : ((extractCollect sub "").map (addPre k)).map (addPre pfx) =
              (extractCollect sub "").map (addPre (addPre pfx k)) := by
            rw [List.map_map]
            exact congrArg (fun f => List.map f (extractCollect sub ""))
              (funext fun q => addPre_assoc pfx k q hk0)
          refine h1.trans ?_
          refine (List.Perm.symm ?_)
          refine h3.trans (h4.trans ?_)
          rw [h5]
        | str s => rw [addPre_empty]; simp [addPre]
        | num x => rw [addPre_empty]; simp [addPre]
        | bool b => rw [addPre_empty]; simp [addPre]
        | null => rw [addPre_empty]; simp [addPre]
        | arr xs => rw [addPre_empty]; simp [addPre]
        | hostVal tag => rw [addPre_empty]; simp [addPre]

end TranslationValidator

namespace TranslationValidator

theorem extract_resolvable : ∀ (n : Nat) (es : JObj), sizeOf es ≤ n → goodObj es = true →
    ∀ p, p ∈ extractCollect es "" →
      ∃ w, I18n.treeLookup (.obj es) (splitDot p) = some w := by
  intro n
  induction n with
  | zero =>
    intro es h hg p hp
    cases es with
    | nil => simp [extractCollect] at hp
    | cons k v rest =>
      simp only [JObj.cons.sizeOf_spec] at h
      omega
  | succ m ih =>
    intro es h hg p hp
    cases es with
    | nil => simp [extractCollect] at hp
    | cons k v rest =>
      obtain ⟨hk0, hkdot, hknotin, hvsub, hgrest⟩ := goodObj_cons hg
      have hrest : sizeOf rest ≤ m := by
        simp only [JObj.cons.sizeOf_spec] at h
        omega
      rw [extractCollect_cons] at hp
      rcases List.mem_append.mp hp with hph | hpr
      · by_cases hu : startsWithUnderscore k = true
        · rw [if_pos hu] at hph
          simp at hph
        · rw [if_neg hu] at hph
          cases v with
          | obj sub =>
            have hgsub := hvsub sub rfl
            have hsub : sizeOf sub ≤ m := by
              simp only [JObj.cons.sizeOf_spec, JValue.obj.sizeOf_spec] at h
              omega
            rw [addPre_empty] at hph
            have hph2 : p ∈ extractCollect sub k := mem_sortJS.mp hph
            have hperm := collect_shift_perm m sub hsub hgsub k
            have hpm : p ∈ (extractCollect sub "").map (addPre k) :=
              hperm.mem_iff.mp hph2
            obtain ⟨q, hq, rfl⟩ := List.mem_map.mp hpm
            obtain ⟨w, hw⟩ := ih sub hsub hgsub q hq
            refine ⟨w, ?_⟩
            have hsplit : splitDot (addPre k q) = k :: splitDot q := by
              rw [show addPre k q = k ++ "." ++ q from by simp [addPre, hk0]]
              exact splitDot_append k q hkdot
            rw [hsplit]
            simp [I18n.treeLookup, objLookup, hw]
          | str s =>
            have hpk : p = k := by simpa [addPre_empty] using hph
            subst hpk
            exact ⟨.str s, by rw [splitDot_single p hkdot]; simp [I18n.treeLookup, objLookup]⟩
          | num x =>
            have hpk : p = k := by simpa [addPre_empty] using hph
            subst hpk
            exact ⟨.num x, by rw [splitDot_single p hkdot]; simp [I18n.treeLookup, objLookup]⟩
          | bool b =>
            have hpk : p = k := by simpa [addPre_empty] using hph
            subst hpk
            exact ⟨.bool b, by rw [splitDot_single p hkdot]; simp [I18n.treeLookup, objLookup]⟩
          | null =>
            have hpk : p = k := by simpa [addPre_empty] using hph
            subst hpk
            exact ⟨.null, by rw [splitDot_single p hkdot]; simp [I18n.treeLookup, objLookup]⟩
          | arr xs =>
            have hpk : p = k := by simpa [addPre_empty] using hph
            subst hpk
            exact ⟨.arr xs, by rw [splitDot_single p hkdot]; simp [I18n.treeLookup, objLookup]⟩
          | hostVal tag =>
            have hpk : p = k := by simpa [addPre_empty] using hph
            subst hpk
            exact ⟨.hostVal tag,
              by rw [splitDot_single p hkdot]; simp [I18n.treeLookup, objLookup]⟩
      · obtain ⟨w, hw⟩ := ih rest hrest hgrest p hpr
        refine ⟨w, ?_⟩
        obtain ⟨s, tail, hst⟩ : ∃ s tail, splitDot p = s :: tail := by
          cases hsp : splitDot p with
          | nil => exact absurd hsp (I18n.splitDot_ne_nil p)
          | cons s tail => exact ⟨s, tail, rfl⟩
        rw [hst] at hw ⊢
        simp only [I18n.treeLookup] at hw ⊢
        cases hlr : objLookup rest s with
        | none =>
          rw [hlr] at hw
          simp at hw
        | some u =>
          rw [hlr] at hw
          have hs : s ∈ objKeys rest := objLookup_mem rest s u hlr
          have hsk : ¬ k = s := fun he => hknotin (he ▸ hs)
          rw [show objLookup (.cons k v rest) s = objLookup rest s from by
            simp [objLookup, hsk], hlr]
          exact hw

end TranslationValidator

/-- Dot-freedom of all segment names of a tree, at every level: exactly the
hypothesis of the round-trip claim, with no further restriction. -/
def dotFreeObj : JObj → Bool
  | .nil => true
  | .cons k v rest =>
    k.data.all (fun c => c != '.') &&
      (match v with
       | .obj sub => dotFreeObj sub
       | _ => true) && dotFreeObj rest

/-- C8 counterexample: the tree `{"": {a: "x"}}` has only dot-free segment
names, yet extraction yields the path `"a"` (the empty root key leaves the
recursion prefix empty), and resolving `"a"` against that tree finds
nothing: `t` returns the key itself, the ultimate fallback. -/
theorem C8_counterexample :
    dotFreeObj (.cons "" (.obj (.cons "a" (.str "x") .nil)) .nil) = true ∧
    "a" ∈ TranslationValidator.extractKeys
        (.cons "" (.obj (.cons "a" (.str "x") .nil)) .nil) "" ∧
    I18n.getNestedValue
        (some (.obj (.cons "" (.obj (.cons "a" (.str "x") .nil)) .nil))) "a" = none ∧
    I18n.t ⟨"en", "en",
        [("en", .obj (.cons "" (.obj (.cons "a" (.str "x") .nil)) .nil))], ["en"]⟩
      "a" [] none = .str "a" :=
  ⟨by decide, by decide, rfl, rfl⟩

/-- C8 (amended): for every locale tree whose segment names are nonempty
and contain no `.` (with unique keys at each level, as in any JSON
object), every key path produced by `extractKeys` resolves in that tree:
`getNestedValue` finds a value, and a resolver whose target locale holds
the tree returns that found value, not the ultimate-fallback key-path
string. -/
theorem C8_roundtrip_amended (es : JObj) (loc fbl : String) (ll : List String) (p : String)
    (hgood : TranslationValidator.goodObj es = true)
    (hp : p ∈ TranslationValidator.extractKeys es "") :
    ∃ w, I18n.getNestedValue (some (.obj es)) p = some w ∧
      I18n.t ⟨loc, fbl, [(loc, .obj es)], ll⟩ p [] none = w := by
  have hp2 : p ∈ TranslationValidator.extractCollect es "" := mem_sortJS.mp hp
  obtain ⟨w, hw⟩ :=
    TranslationValidator.extract_resolvable (sizeOf es) es (Nat.le_refl _) hgood p hp2
  have hres : I18n.getNestedValue (some (.obj es)) p = some w :=
    I18n.getNestedValue_of_treeLookup hw
  refine ⟨w, hres, ?_⟩
  cases w with
  | str s => simp [I18n.t, hres]
  | num x => simp [I18n.t, hres]
  | bool b => simp [I18n.t, hres]
  | null => simp [I18n.t, hres]
  | arr xs => simp [I18n.t, hres]
  | obj es2 => simp [I18n.t, hres]
  | hostVal tag => simp [I18n.t, hres]

/-- C8 witness: the amended round trip applied to a concrete well-formed
two-level tree and the extracted path `"app.name"`. -/
theorem C8_witness :
    TranslationValidator.goodObj
        (.cons "app" (.obj (.cons "name" (.str "Test") .nil))
          (.cons "c" (.str "y") .nil)) = true ∧
    "app.name" ∈ TranslationValidator.extractKeys
        (.cons "app" (.obj (.cons "name" (.str "Test") .nil))
          (.cons "c" (.str "y") .nil)) "" ∧
    ∃ w, I18n.getNestedValue
        (some (.obj (.cons "app" (.obj (.cons "name" (.str "Test") .nil))
          (.cons "c" (.str "y") .nil)))) "app.name" = some w ∧
      I18n.t ⟨"en", "en",
          [("en", .obj (.cons "app" (.obj (.cons "name" (.str "Test") .nil))
            (.cons "c" (.str "y") .nil)))], ["en"]⟩ "app.name" [] none = w :=
  ⟨by decide, by decide,
   C8_roundtrip_amended
     (.cons "app" (.obj (.cons "name" (.str "Test") .nil)) (.cons "c" (.str "y") .nil))
     "en" "en" ["en"] "app.name" (by decide) (by decide)⟩
